import Mathlib

/-!
Verification development for notify-tail (src/notify-tail.c).

The C program tails files via inotify.  We shallowly embed its core:
the line assembler (`handle_lines` / `do_read` / `read_watch`) working on a
fixed buffer of `LINE_BUFFER_SIZE` bytes, and the watch-lifecycle state
machine over a registry of `file_watch` records (`init_watch`,
`wait_for_parent`, `reinit_file`, `file_deleted`, `file_appeared`,
`handle_event`, `init_files`, `main`).

Bytes are modelled as `Nat` (the newline delimiter is byte 10, the C string
terminator is byte 0).  The C buffer `line_buffer_data[LINE_BUFFER_SIZE]`
with write cursor `line_buffer_pos` is modelled as the list of its first
`line_buffer_pos` bytes; the terminating NUL that `do_read` writes at the
cursor is implicit (it bounds every `strchr` scan).  File descriptors and
inotify watch descriptors are modelled as `Option Nat` (`none` is the C
value `-1`), drawn from counters in the world state.  The filesystem is a
parameter `fs : List Nat → Option Nat` giving the size of the file at a path
if `open` succeeds, and `wok : List Nat → Bool` tells whether
`inotify_add_watch` succeeds on a path.
-/

namespace NotifyTail

/-- `LINE_BUFFER_SIZE` from notify-tail.c (line 14). -/
def LINE_BUFFER_SIZE : Nat := 4096

/-- The scanning loop of C `handle_lines` (lines 60-79): repeatedly `strchr`
for a newline (byte 10); `strchr` stops at a NUL (byte 0), so a line is only
found if a 10 occurs before any 0.  Each found span is emitted via
`handle_line` (we record the byte span handed to `handle_line`; `handle_line`
itself additionally drops empty lines before notifying).  Returns the emitted
spans in order together with the residual bytes that are moved to the front
of the buffer. -/
def extractLines : List Nat → List (List Nat) × List Nat
  | [] => ([], [])
  | b :: t =>
    if b = 0 then ([], b :: t)
    else if b = 10 then
      let p := extractLines t
      ([] :: p.1, p.2)
    else
      let p := extractLines t
      match p.1 with
      | [] => ([], b :: t)
      | L :: Ls => ((b :: L) :: Ls, p.2)

/-- C `handle_lines` (lines 57-87): extract complete lines, keep the residual
at the front of the buffer, and if the residual still fills the whole buffer
(`line_buffer_pos >= LINE_BUFFER_SIZE - 1`) force-emit the C string at the
start of the buffer (bytes up to the first NUL) and reset the buffer. -/
def handle_lines (data : List Nat) : List (List Nat) × List Nat :=
  let p := extractLines data
  if LINE_BUFFER_SIZE - 1 ≤ p.2.length then
    (p.1 ++ [p.2.takeWhile (fun b => b != 0)], [])
  else p

/-- The C read loop of `read_watch` (lines 122-123): `while (do_read(watch))
handle_lines(watch);`.  `do_read` (lines 89-108) reads at most
`LINE_BUFFER_SIZE - pos - 1` bytes at the cursor, NUL-terminates, and reports
whether any byte was read.  The pending file bytes are the `s` stream; a read
of zero bytes ends the loop.  Each iteration consumes at least one byte of
`s`, so `s.length + 1` units of fuel always suffice; the fuel only makes the
recursion structural.  Returns (emitted lines, final buffer, unread bytes). -/
def readGo : Nat → List Nat → List Nat → List (List Nat) × List Nat × List Nat
  | 0, b, s => ([], b, s)
  | fuel + 1, b, s =>
    let chunk := s.take (LINE_BUFFER_SIZE - b.length - 1)
    if chunk = [] then ([], b, s)
    else
      let p := handle_lines (b ++ chunk)
      let q := readGo fuel p.2 (s.drop (LINE_BUFFER_SIZE - b.length - 1))
      (p.1 ++ q.1, q.2.1, q.2.2)

/-- The read-to-exhaustion loop on buffer `b` with pending file bytes `s`. -/
def readLoop (b s : List Nat) : List (List Nat) × List Nat × List Nat :=
  readGo (s.length + 1) b s

/-- Feeding the assembler incrementally: each chunk is handed to one
`read_watch`-style read loop, carrying the residual buffer across calls.
Returns (all emitted lines in order, final buffer). -/
def feedChunks : List Nat → List (List Nat) → List (List Nat) × List Nat
  | b, [] => ([], b)
  | b, c :: cs =>
    let r := readLoop b c
    let q := feedChunks r.2.1 cs
    (r.1 ++ q.1, q.2)

/-- All segments of a byte list split on newline (byte 10); a list with `n`
newlines yields `n + 1` segments, the last being the residual after the last
newline (empty iff the list ends in a newline).  This is the mathematical
reference function for the spec's "splitting the concatenation on newline". -/
def splitLines : List Nat → List (List Nat)
  | [] => [[]]
  | b :: t =>
    match splitLines t with
    | [] => [[b]]
    | s :: ss => if b = 10 then [] :: s :: ss else (b :: s) :: ss

/-- The suffix after the last newline (byte 10): the residual partial line. -/
def lastSeg : List Nat → List Nat
  | [] => []
  | b :: t => if b = 10 then lastSeg t else if 10 ∈ t then lastSeg t else b :: t

/-- Prepend bytes onto the first segment of a segment list (helper for the
`splitLines` append law). -/
def consHd (x : List Nat) : List (List Nat) → List (List Nat)
  | [] => [x]
  | s :: ss => (x ++ s) :: ss

/-- One `struct file_watch` record (notify-tail.c lines 17-30).  `watch_desc`
and `fd` are `none` where the C fields hold `-1`; `parent` is the index of the
parent directory entry in the registry; `buffer` is the first
`line_buffer_pos` bytes of `line_buffer_data`.  `is_file` records the
`is_file` argument that `init_watch` was called with (the C code does not
store it; directory entries are exactly those created with `is_file ==
false`, which receive an IN_CREATE|IN_MOVED_TO watch at creation). -/
structure Entry where
  watch_desc : Option Nat
  parent : Option Nat
  name : List Nat
  fd : Option Nat
  file_offset : Nat
  buffer : List Nat
  is_file : Bool
  deriving DecidableEq

/-- The global state: the `file_watches` list (append-ordered, as the C
linked list appends at the tail) plus fresh-number supplies for watch
descriptors and file descriptors. -/
structure World where
  registry : List Entry
  nextWd : Nat
  nextFd : Nat
  deriving DecidableEq

/-- Replace the entry at index `i` (the C code mutates through a pointer). -/
def setEntry (w : World) (i : Nat) (e : Entry) : World :=
  { w with registry := w.registry.set i e }

/-- Index of the last slash (byte 47) in a path, as found by C
`strrchr(path, '/')`. -/
def lastSlashIdx : List Nat → Option Nat
  | [] => none
  | b :: t =>
    match lastSlashIdx t with
    | some k => some (k + 1)
    | none => if b = 47 then some 0 else none

/-- C `find_watch_by_name` (lines 139-151): first registry index whose name
equals `n` exactly (`strcmp`). -/
def find_by_name : List Entry → List Nat → Option Nat
  | [], _ => none
  | e :: t, n => if e.name = n then some 0 else (find_by_name t n).map (· + 1)

/-- C `init_watch` (lines 153-178): allocate a zeroed record with the given
name, `fd = -1`, append it at the tail of the registry; a directory entry
(`is_file = false`) immediately gets an IN_CREATE|IN_MOVED_TO watch (which
may fail, leaving `watch_desc = -1`), a file entry starts with
`watch_desc = -1`. -/
def init_watch (w : World) (name : List Nat) (isf : Bool) (wok : List Nat → Bool) : World :=
  let wd : Option Nat := if isf then none else (if wok name then some w.nextWd else none)
  { registry := w.registry ++
      [{ watch_desc := wd, parent := none, name := name, fd := none,
         file_offset := 0, buffer := [], is_file := isf }],
    nextWd := if wd.isSome then w.nextWd + 1 else w.nextWd,
    nextFd := w.nextFd }

/-- C `wait_for_parent` (lines 180-200): if the entry has no parent yet, cut
the name at the last slash; look the directory path up in the registry and
link to it, or create a fresh directory entry (watched for
IN_CREATE|IN_MOVED_TO) and link to that. -/
def wait_for_parent (w : World) (i : Nat) (wok : List Nat → Bool) : World :=
  match w.registry[i]? with
  | none => w
  | some e =>
    if e.parent.isSome then w
    else
      match lastSlashIdx e.name with
      | none => w
      | some k =>
        let d := e.name.take k
        match find_by_name w.registry d with
        | some j => setEntry w i { e with parent := some j }
        | none =>
          let j := w.registry.length
          let w1 := init_watch w d false wok
          setEntry w1 i { e with parent := some j }

/-- C `reinit_file` (lines 213-240): drop any stale descriptor and watch,
resolve the parent directory watch, then `open` the path; on success install
the descriptor, and if `inotify_add_watch` also succeeds set `file_offset`
to the end of the file (`lseek(fd, 0, SEEK_END)`).  Note: the C code never
touches `line_buffer_pos` here, and leaves `file_offset` unchanged when
`open` or `inotify_add_watch` fails. -/
def reinit_file (w : World) (i : Nat) (fs : List Nat → Option Nat)
    (wok : List Nat → Bool) : World :=
  match w.registry[i]? with
  | none => w
  | some e0 =>
    let wa := setEntry w i { e0 with fd := none, watch_desc := none }
    let wb := wait_for_parent wa i wok
    match wb.registry[i]? with
    | none => wb
    | some e =>
      match fs e.name with
      | none => wb
      | some size =>
        if wok e.name then
          let wc := setEntry wb i
            { e with
              fd := some wb.nextFd,
              watch_desc := some wb.nextWd,
              file_offset := size }
          { wc with nextFd := wb.nextFd + 1, nextWd := wb.nextWd + 1 }
        else
          let wc := setEntry wb i { e with fd := some wb.nextFd, watch_desc := none }
          { wc with nextFd := wb.nextFd + 1 }

/-- C `file_deleted` (lines 202-211): unsubscribe, close, reset offset and
line buffer. -/
def file_deleted (w : World) (i : Nat) : World :=
  match w.registry[i]? with
  | none => w
  | some e =>
    setEntry w i
      { e with fd := none, watch_desc := none, file_offset := 0, buffer := [] }

/-- C `read_watch` (lines 110-126): `fstat` the file; if its size dropped
below `file_offset` report truncation and `lseek` to 0, then run the read
loop from the current position and store the resulting position in
`file_offset`.  `contents` is the current content of the backing file; the
kernel file position equals `file_offset` (established by the `lseek` at the
end of the previous call, or `SEEK_END` in `reinit_file`).  Returns the new
world and the byte spans handed to `handle_line`. -/
def read_watch (w : World) (i : Nat) (contents : List Nat) :
    World × List (List Nat) :=
  match w.registry[i]? with
  | none => (w, [])
  | some e =>
    let start := if contents.length < e.file_offset then 0 else e.file_offset
    let stream := contents.drop start
    let r := readLoop e.buffer stream
    (setEntry w i
      { e with
        buffer := r.2.1,
        file_offset := start + (stream.length - r.2.2.length) }, r.1)

/-- The matching test of C `file_appeared` (lines 272-279): the directory
path must be a byte prefix of the entry's path (`strncmp` over `dir_len`
bytes), and the remainder, after skipping any leading slashes, must equal the
child name reported by the event. -/
def matches_child (dir file child : List Nat) : Bool :=
  dir.isPrefixOf file && ((file.drop dir.length).dropWhile (fun b => b == 47) == child)

/-- The scan loop of C `file_appeared` (lines 268-287): walk the registry
from the head, and re-enable (`reinit_file`) every entry whose path matches
`dir ++ child`.  The walk follows the live list, so entries appended during
the walk (by `wait_for_parent` inside `reinit_file`) are visited as well;
each iteration advances the index by one, and an iteration appends at most
one entry, so `2 * length + 1` units of fuel always suffice.  Also returns
the indices on which `reinit_file` was invoked, in order. -/
def fa_loop (fs : List Nat → Option Nat) (wok : List Nat → Bool)
    (dir child : List Nat) : Nat → World → Nat → World × List Nat
  | 0, w, _ => (w, [])
  | fuel + 1, w, j =>
    match w.registry[j]? with
    | none => (w, [])
    | some e =>
      if matches_child dir e.name child then
        let r := fa_loop fs wok dir child fuel (reinit_file w j fs wok) (j + 1)
        (r.1, j :: r.2)
      else fa_loop fs wok dir child fuel w (j + 1)

/-- C `file_appeared` (lines 265-287), triggered by IN_CREATE/IN_MOVED_TO on
a directory watch. -/
def file_appeared (w : World) (dirIdx : Nat) (child : List Nat)
    (fs : List Nat → Option Nat) (wok : List Nat → Bool) : World × List Nat :=
  match w.registry[dirIdx]? with
  | none => (w, [])
  | some de => fa_loop fs wok de.name child (2 * w.registry.length + 1) w 0

/-- C `handle_event` (lines 289-312): dispatch the mask bits in the fixed
order modify, then create/moved-to, then delete-self/move-self.  `contents`
is the content of the backing file when the modify bit is processed.
Returns the resulting world and the lines emitted by the modify read. -/
def handle_event (w : World) (i : Nat) (name : List Nat)
    (modify createBit movedTo deleteSelf moveSelf : Bool)
    (contents : List Nat) (fs : List Nat → Option Nat) (wok : List Nat → Bool) :
    World × List (List Nat) :=
  let r1 := if modify then read_watch w i contents else (w, [])
  let w2 := if createBit || movedTo then (file_appeared r1.1 i name fs wok).1 else r1.1
  let w3 := if deleteSelf || moveSelf then file_deleted w2 i else w2
  (w3, r1.2)

/-- C `init_file` (lines 242-250): append a file entry and immediately try to
initialise it. -/
def init_file (w : World) (name : List Nat) (fs : List Nat → Option Nat)
    (wok : List Nat → Bool) : World :=
  let i := w.registry.length
  reinit_file (init_watch w name true wok) i fs wok

/-- C `init_files` (lines 252-263): initialise every argument path in order.
`init_file` always returns true in the C code, so `init_files` always
returns true; the world is the only meaningful result. -/
def init_files (w : World) (names : List (List Nat)) (fs : List Nat → Option Nat)
    (wok : List Nat → Bool) : World :=
  names.foldl (fun wacc n => init_file wacc n fs wok) w

/-- The pre-loop part of C `main` (lines 347-362): if `inotify_init` fails the
process exits with a non-zero status (`none`); otherwise `init_files` runs on
the argument paths (it cannot fail) and the process enters the infinite event
loop with the resulting world (`some w`). -/
def main_pre (inotifyOk : Bool) (args : List (List Nat))
    (fs : List Nat → Option Nat) (wok : List Nat → Bool) : Option World :=
  if inotifyOk then some (init_files ⟨[], 0, 0⟩ args fs wok) else none

/-- Concrete entry for the truncation scenario: Watching with handle 7,
descriptor 3, offset 5, empty assembler buffer. -/
def c3Entry : Entry :=
  { watch_desc := some 7, parent := none, name := [102], fd := some 3,
    file_offset := 5, buffer := [], is_file := true }

/-- Concrete one-entry world for the truncation scenario. -/
def c3World : World := { registry := [c3Entry], nextWd := 8, nextFd := 9 }

/-- Directory entry named "d" (byte [100]) for the file-appeared scenario. -/
def c4DirEntry : Entry :=
  { watch_desc := some 5, parent := none, name := [100], fd := none,
    file_offset := 0, buffer := [], is_file := false }

/-- File entry with path "df" (bytes [100, 102]) — note: NOT "d/f" — which is
currently Watching (descriptor 9, handle 4). -/
def c4FileEntry : Entry :=
  { watch_desc := some 4, parent := some 0, name := [100, 102], fd := some 9,
    file_offset := 0, buffer := [], is_file := true }

/-- Two-entry world for the file-appeared counterexample. -/
def c4World : World := { registry := [c4DirEntry, c4FileEntry], nextWd := 6, nextFd := 200 }

/-- File entry with path "d/f" (bytes [100, 47, 102]) with its parent already
resolved, for the file-appeared witness. -/
def c4wFile : Entry :=
  { watch_desc := none, parent := some 1, name := [100, 47, 102], fd := none,
    file_offset := 0, buffer := [], is_file := true }

/-- Directory entry named "d" for the file-appeared witness; its path has no
slash, so `wait_for_parent` is a no-op on it. -/
def c4wDir : Entry :=
  { watch_desc := some 0, parent := none, name := [100], fd := none,
    file_offset := 0, buffer := [], is_file := false }

/-- Two-entry world for the file-appeared witness. -/
def c4wWorld : World := { registry := [c4wFile, c4wDir], nextWd := 1, nextFd := 0 }

/-- First file entry for the shared-parent scenario: path "a/x"
(bytes 97 47 120), no parent resolved yet. -/
def c7EntryX : Entry :=
  { watch_desc := none, parent := none, name := [97, 47, 120], fd := none,
    file_offset := 0, buffer := [], is_file := true }

/-- Second file entry for the shared-parent scenario: path "a/y". -/
def c7EntryY : Entry :=
  { watch_desc := none, parent := none, name := [97, 47, 121], fd := none,
    file_offset := 0, buffer := [], is_file := true }

/-- Two-entry world for the shared-parent scenario. -/
def c7World : World := { registry := [c7EntryX, c7EntryY], nextWd := 0, nextFd := 0 }

/-- The byte string of the path watched in the end-to-end scenario
(the 12 bytes of /tmp/log.txt). -/
def c6Path : List Nat := [47, 116, 109, 112, 47, 108, 111, 103, 46, 116, 120, 116]

/-- The byte string of the parent directory /tmp. -/
def c6Dir : List Nat := [47, 116, 109, 112]

/-- The child name log.txt reported by the create event. -/
def c6Child : List Nat := [108, 111, 103, 46, 116, 120, 116]

/-- The world right after startup: `init_files` on the single argument
c6Path while the file does not exist (`open` fails on every path). -/
def c6Start : World :=
  init_files { registry := [], nextWd := 0, nextFd := 0 } [c6Path]
    (fun _ => none) (fun _ => true)

/-- The world after the IN_CREATE event for c6Child arrives on the directory
watch (index 1) while the new file is still empty. -/
def c6AfterCreate : World :=
  (handle_event c6Start 1 c6Child false true false false false []
    (fun q => if q = c6Path then some 0 else none) (fun _ => true)).1

/-- The final world and emitted lines after the IN_MODIFY event, when the
file holds the 6 bytes of the line 104 101 108 108 111 10 ("hello\n"). -/
def c6Final : World × List (List Nat) :=
  handle_event c6AfterCreate 0 [] true false false false false
    [104, 101, 108, 108, 111, 10]
    (fun q => if q = c6Path then some 6 else none) (fun _ => true)

/-- Concrete entry for the coherence scenario: an Unwatched file entry. -/
def c5Entry : Entry :=
  { watch_desc := none, parent := none, name := [102], fd := none,
    file_offset := 0, buffer := [], is_file := true }

/-- Concrete one-entry world for the coherence scenario. -/
def c5World : World := { registry := [c5Entry], nextWd := 0, nextFd := 0 }

/-- Concrete entry for the reinit scenario: currently Watching, with one
residual byte 97 in the assembler buffer. -/
def c8Entry : Entry :=
  { watch_desc := some 3, parent := none, name := [102], fd := some 7,
    file_offset := 5, buffer := [97], is_file := true }

/-- Concrete one-entry world for the reinit scenario. -/
def c8World : World := { registry := [c8Entry], nextWd := 4, nextFd := 8 }

/-- The spec's Watching/Unwatched coherence for one entry: a file entry has
an open descriptor iff it has a live watch handle. -/
def Good (e : Entry) : Prop :=
  e.is_file = true → (e.fd.isSome ↔ e.watch_desc.isSome)

/-- The spec's registry invariant: every file entry is coherent. -/
def GoodW (w : World) : Prop :=
  ∀ e ∈ w.registry, Good e

instance (e : Entry) : Decidable (Good e) := by
  unfold Good; infer_instance

instance (w : World) : Decidable (GoodW w) := by
  unfold GoodW; infer_instance

/-- Parent-resolved registries: every entry either already has a parent link
or has no slash in its path (so `wait_for_parent` is a no-op on it). -/
def ParentsDone (w : World) : Prop :=
  ∀ e ∈ w.registry, e.parent.isSome = true ∨ lastSlashIdx e.name = none

instance (w : World) : Decidable (ParentsDone w) := by
  unfold ParentsDone; infer_instance

/-! ### Lemmas about `splitLines` and `lastSeg` -/

theorem splitLines_ne_nil (l : List Nat) : splitLines l ≠ [] := by
  cases l with
  | nil => simp [splitLines]
  | cons b t =>
    cases h : splitLines t with
    | nil => simp [splitLines, h]
    | cons s ss =>
      simp only [splitLines, h]
      split <;> simp

theorem exists_splitLines_cons (l : List Nat) :
    ∃ s ss, splitLines l = s :: ss := by
  cases h : splitLines l with
  | nil => exact absurd h (splitLines_ne_nil l)
  | cons s ss => exact ⟨s, ss, rfl⟩

theorem splitLines_cons10 (t : List Nat) :
    splitLines (10 :: t) = [] :: splitLines t := by
  obtain ⟨s, ss, h⟩ := exists_splitLines_cons t
  simp [splitLines, h]

theorem splitLines_cons_ne {x : Nat} (hx : x ≠ 10) {t : List Nat} {s : List Nat}
    {ss : List (List Nat)} (h : splitLines t = s :: ss) :
    splitLines (x :: t) = (x :: s) :: ss := by
  simp [splitLines, h, hx]

theorem splitLines_of_not_mem {l : List Nat} (h : 10 ∉ l) : splitLines l = [l] := by
  induction l with
  | nil => rfl
  | cons b t ih =>
    have hb : b ≠ 10 := fun e => h (by simp [e])
    have ht : 10 ∉ t := fun m => h (List.mem_cons_of_mem _ m)
    exact splitLines_cons_ne hb (ih ht)

theorem lastSeg_cons10 (t : List Nat) : lastSeg (10 :: t) = lastSeg t := by
  simp [lastSeg]

theorem lastSeg_cons_mem {x : Nat} (hx : x ≠ 10) {t : List Nat} (ht : 10 ∈ t) :
    lastSeg (x :: t) = lastSeg t := by
  simp [lastSeg, hx, ht]

theorem lastSeg_cons_not_mem {x : Nat} (hx : x ≠ 10) {t : List Nat} (ht : 10 ∉ t) :
    lastSeg (x :: t) = x :: t := by
  simp [lastSeg, hx, ht]

theorem lastSeg_of_not_mem {l : List Nat} (h : 10 ∉ l) : lastSeg l = l := by
  cases l with
  | nil => rfl
  | cons b t =>
    have hb : b ≠ 10 := fun e => h (by simp [e])
    have ht : (10 : Nat) ∉ t := fun m => h (List.mem_cons_of_mem _ m)
    exact lastSeg_cons_not_mem hb ht

theorem not_mem_lastSeg (l : List Nat) : 10 ∉ lastSeg l := by
  induction l with
  | nil => simp [lastSeg]
  | cons b t ih =>
    by_cases hb : b = 10
    · subst hb; rw [lastSeg_cons10]; exact ih
    · by_cases ht : (10 : Nat) ∈ t
      · rw [lastSeg_cons_mem hb ht]; exact ih
      · rw [lastSeg_cons_not_mem hb ht]
        intro hm
        rcases List.mem_cons.mp hm with h1 | h1
        · exact hb h1.symm
        · exact ht h1

theorem mem_of_mem_lastSeg {x : Nat} {l : List Nat} (h : x ∈ lastSeg l) : x ∈ l := by
  induction l with
  | nil => simp [lastSeg] at h
  | cons b t ih =>
    by_cases hb : b = 10
    · rw [hb, lastSeg_cons10] at h; exact List.mem_cons_of_mem _ (ih h)
    · by_cases ht : (10 : Nat) ∈ t
      · rw [lastSeg_cons_mem hb ht] at h; exact List.mem_cons_of_mem _ (ih h)
      · rwa [lastSeg_cons_not_mem hb ht] at h

theorem lastSeg_length_le (l : List Nat) : (lastSeg l).length ≤ l.length := by
  induction l with
  | nil => simp [lastSeg]
  | cons b t ih =>
    by_cases hb : b = 10
    · rw [hb, lastSeg_cons10]; simpa using Nat.le_succ_of_le ih
    · by_cases ht : (10 : Nat) ∈ t
      · rw [lastSeg_cons_mem hb ht]; simpa using Nat.le_succ_of_le ih
      · rw [lastSeg_cons_not_mem hb ht]

theorem mem_iff_two_le_splitLines {t : List Nat} :
    10 ∈ t ↔ 2 ≤ (splitLines t).length := by
  induction t with
  | nil => simp [splitLines]
  | cons b t ih =>
    by_cases hb : b = 10
    · subst hb
      rw [splitLines_cons10]
      have := List.length_pos.mpr (splitLines_ne_nil t)
      simp only [List.length_cons]
      constructor
      · intro; omega
      · intro; exact List.mem_cons_self _ _
    · obtain ⟨s, ss, hs⟩ := exists_splitLines_cons t
      rw [splitLines_cons_ne hb hs]
      have hlen : (splitLines t).length = ss.length + 1 := by rw [hs]; rfl
      constructor
      · intro h
        rcases List.mem_cons.mp h with h | h
        · exact absurd h.symm hb
        · have := ih.mp h
          simp only [List.length_cons]
          omega
      · intro h
        simp only [List.length_cons] at h
        exact List.mem_cons_of_mem _ (ih.mpr (by omega))

theorem lastSeg_append (a b : List Nat) :
    lastSeg (a ++ b) = lastSeg (lastSeg a ++ b) := by
  induction a with
  | nil => simp [lastSeg]
  | cons x a' ih =>
    by_cases hx : x = 10
    · subst hx
      rw [List.cons_append, lastSeg_cons10, lastSeg_cons10, ih]
    · by_cases ha : (10 : Nat) ∈ a'
      · rw [List.cons_append, lastSeg_cons_mem hx (List.mem_append_left _ ha),
          lastSeg_cons_mem hx ha, ih]
      · rw [lastSeg_cons_not_mem hx ha]

theorem consHd_ne_nil (x : List Nat) (ls : List (List Nat)) : consHd x ls ≠ [] := by
  cases ls <;> simp [consHd]

theorem splitLines_append (a b : List Nat) :
    splitLines (a ++ b) = (splitLines a).dropLast ++ consHd (lastSeg a) (splitLines b) := by
  induction a with
  | nil =>
    obtain ⟨s, ss, h⟩ := exists_splitLines_cons b
    simp [splitLines, lastSeg, consHd, h]
  | cons x a' ih =>
    by_cases hx : x = 10
    · subst hx
      rw [List.cons_append, splitLines_cons10, splitLines_cons10, ih, lastSeg_cons10,
        List.dropLast_cons_of_ne_nil (splitLines_ne_nil a'), List.cons_append]
    · obtain ⟨s, ss, hs⟩ := exists_splitLines_cons a'
      cases ss with
      | nil =>
        have h10 : (10 : Nat) ∉ a' := by
          rw [mem_iff_two_le_splitLines, hs]; simp
        have hsa : s = a' := by
          have h2 := splitLines_of_not_mem h10
          rw [hs] at h2
          exact (List.cons.injEq _ _ _ _).mp h2 |>.1
        subst hsa
        obtain ⟨u, us, hb⟩ := exists_splitLines_cons b
        have hab : splitLines (s ++ b) = (s ++ u) :: us := by
          rw [ih, hs, hb, lastSeg_of_not_mem h10]; simp [consHd]
        rw [List.cons_append, splitLines_cons_ne hx hab,
          splitLines_cons_ne hx hs, hb, lastSeg_cons_not_mem hx h10]
        simp [consHd, List.cons_append]
      | cons s2 ss2 =>
        have h10 : (10 : Nat) ∈ a' := by
          rw [mem_iff_two_le_splitLines, hs]; simp only [List.length_cons]; omega
        have hab : splitLines (a' ++ b)
            = s :: ((s2 :: ss2).dropLast ++ consHd (lastSeg a') (splitLines b)) := by
          rw [ih, hs, List.dropLast_cons_of_ne_nil (by simp), List.cons_append]
        rw [List.cons_append, splitLines_cons_ne hx hab, splitLines_cons_ne hx hs,
          lastSeg_cons_mem hx h10,
          List.dropLast_cons_of_ne_nil (by simp : s2 :: ss2 ≠ ([] : List (List Nat))),
          List.cons_append]

theorem takeWhile_ne_zero_of_no_nul {l : List Nat} (h0 : ∀ x ∈ l, x ≠ 0) :
    l.takeWhile (fun b => b != 0) = l := by
  induction l with
  | nil => rfl
  | cons b t ih =>
    have hb : (b != 0) = true := by
      simpa using h0 b (List.mem_cons_self _ _)
    rw [List.takeWhile_cons, hb]
    simp only [ite_true]
    rw [ih fun x hx => h0 x (List.mem_cons_of_mem _ hx)]

theorem dropLast_splitLines_append (a b : List Nat) :
    (splitLines (a ++ b)).dropLast
      = (splitLines a).dropLast ++ (splitLines (lastSeg a ++ b)).dropLast := by
  have h2 := splitLines_append (lastSeg a) b
  rw [splitLines_of_not_mem (not_mem_lastSeg a), lastSeg_of_not_mem (not_mem_lastSeg a)] at h2
  simp only [List.dropLast_single, List.nil_append] at h2
  rw [splitLines_append a b, h2,
    List.dropLast_append_of_ne_nil _ (consHd_ne_nil (lastSeg a) (splitLines b))]

/-! ### The C line-extraction scan computes split-on-newline (NUL-free data) -/

theorem extractLines_eq_of_no_nul {l : List Nat} (h0 : ∀ x ∈ l, x ≠ 0) :
    extractLines l = ((splitLines l).dropLast, lastSeg l) := by
  induction l with
  | nil => simp [extractLines, splitLines, lastSeg]
  | cons b t ih =>
    have hb0 : b ≠ 0 := h0 b (List.mem_cons_self _ _)
    have ht0 : ∀ x ∈ t, x ≠ 0 := fun x hx => h0 x (List.mem_cons_of_mem _ hx)
    by_cases hb : b = 10
    · subst hb
      rw [splitLines_cons10, lastSeg_cons10,
        List.dropLast_cons_of_ne_nil (splitLines_ne_nil t)]
      simp [extractLines, ih ht0]
    · by_cases ht : (10 : Nat) ∈ t
      · obtain ⟨s, ss, hs⟩ := exists_splitLines_cons t
        cases ss with
        | nil =>
          exact absurd (mem_iff_two_le_splitLines.mp ht) (by rw [hs]; simp)
        | cons s2 ss2 =>
          rw [splitLines_cons_ne hb hs, lastSeg_cons_mem hb ht,
            List.dropLast_cons_of_ne_nil (by simp : s2 :: ss2 ≠ ([] : List (List Nat)))]
          have hp := ih ht0
          rw [hs, List.dropLast_cons_of_ne_nil (by simp : s2 :: ss2 ≠ ([] : List (List Nat)))] at hp
          simp [extractLines, hb0, hb, hp]
      · have hs := splitLines_of_not_mem ht
        have hp := ih ht0
        rw [hs] at hp
        simp only [List.dropLast_single] at hp
        rw [splitLines_cons_ne hb hs, lastSeg_cons_not_mem hb ht]
        simp [extractLines, hb0, hb, hp]

theorem extractLines_of_no_nl {l : List Nat} (h0 : ∀ x ∈ l, x ≠ 0) (h10 : 10 ∉ l) :
    extractLines l = ([], l) := by
  rw [extractLines_eq_of_no_nul h0, splitLines_of_not_mem h10, lastSeg_of_not_mem h10]
  simp

/-! ### `handle_lines` -/

theorem handle_lines_spec {l : List Nat} (h0 : ∀ x ∈ l, x ≠ 0)
    (hres : (lastSeg l).length < LINE_BUFFER_SIZE - 1) :
    handle_lines l = ((splitLines l).dropLast, lastSeg l) := by
  simp only [handle_lines, extractLines_eq_of_no_nul h0]
  rw [if_neg (by omega : ¬ (LINE_BUFFER_SIZE - 1 ≤ (lastSeg l).length))]

theorem handle_lines_overflow {l : List Nat} (h0 : ∀ x ∈ l, x ≠ 0) (h10 : 10 ∉ l)
    (hlen : LINE_BUFFER_SIZE - 1 ≤ l.length) :
    handle_lines l = ([l], []) := by
  have he := extractLines_of_no_nl h0 h10
  simp only [handle_lines, he]
  rw [if_pos hlen, takeWhile_ne_zero_of_no_nul h0]
  simp

theorem handle_lines_residual (d : List Nat) :
    (handle_lines d).2.length < LINE_BUFFER_SIZE - 1 := by
  by_cases h : LINE_BUFFER_SIZE - 1 ≤ (extractLines d).2.length
  · simp only [handle_lines, if_pos h]
    simp [LINE_BUFFER_SIZE]
  · simp only [handle_lines, if_neg h]
    omega

/-! ### The read loop -/

theorem readGo_spec : ∀ (fuel : Nat) (s b : List Nat), s.length < fuel →
    (∀ x ∈ b, x ≠ 0) → 10 ∉ b → (∀ x ∈ s, x ≠ 0) →
    b.length < LINE_BUFFER_SIZE - 1 →
    (∀ n, (lastSeg (b ++ s.take n)).length < LINE_BUFFER_SIZE - 1) →
    readGo fuel b s = ((splitLines (b ++ s)).dropLast, lastSeg (b ++ s), []) := by
  intro fuel
  induction fuel with
  | zero => intro s b h; omega
  | succ fuel ih =>
    intro s b hfuel hb0 hb10 hs0 hblen hres
    by_cases hnil : s = []
    · subst hnil
      simp [readGo, splitLines_of_not_mem hb10, lastSeg_of_not_mem hb10]
    · have hchunk : ¬ (s.take (LINE_BUFFER_SIZE - b.length - 1) = []) := by
        rw [List.take_eq_nil_iff]
        push_neg
        exact ⟨by omega, hnil⟩
      have hd0 : ∀ x ∈ b ++ s.take (LINE_BUFFER_SIZE - b.length - 1), x ≠ 0 := by
        intro x hx
        rcases List.mem_append.mp hx with h | h
        · exact hb0 x h
        · exact hs0 x (List.take_subset _ _ h)
      have hdres : (lastSeg (b ++ s.take (LINE_BUFFER_SIZE - b.length - 1))).length
          < LINE_BUFFER_SIZE - 1 := hres _
      have hH := handle_lines_spec hd0 hdres
      have h5 : (s.drop (LINE_BUFFER_SIZE - b.length - 1)).length < fuel := by
        have hs1 : 1 ≤ s.length := List.length_pos.mpr hnil
        have hld := List.length_drop (LINE_BUFFER_SIZE - b.length - 1) s
        omega
      have h6 : ∀ n,
          (lastSeg (lastSeg (b ++ s.take (LINE_BUFFER_SIZE - b.length - 1))
            ++ (s.drop (LINE_BUFFER_SIZE - b.length - 1)).take n)).length
          < LINE_BUFFER_SIZE - 1 := by
        intro n
        rw [← lastSeg_append, List.append_assoc, ← List.take_add]
        exact hres _
      have hR := ih (s.drop (LINE_BUFFER_SIZE - b.length - 1))
        (lastSeg (b ++ s.take (LINE_BUFFER_SIZE - b.length - 1)))
        h5
        (fun x hx => hd0 x (mem_of_mem_lastSeg hx))
        (not_mem_lastSeg _)
        (fun x hx => hs0 x (List.drop_subset _ _ hx))
        hdres h6
      have hds : (b ++ s.take (LINE_BUFFER_SIZE - b.length - 1))
          ++ s.drop (LINE_BUFFER_SIZE - b.length - 1) = b ++ s := by
        rw [List.append_assoc, List.take_append_drop]
      simp only [readGo]
      rw [if_neg hchunk]
      simp only [hH, hR]
      rw [← dropLast_splitLines_append, ← lastSeg_append, hds]

theorem readGo_zero (b s : List Nat) : readGo 0 b s = ([], b, s) := rfl

theorem readGo_succ_nil (fuel : Nat) (b s : List Nat)
    (h : s.take (LINE_BUFFER_SIZE - b.length - 1) = []) :
    readGo (fuel + 1) b s = ([], b, s) := by
  simp only [readGo]
  rw [if_pos h]

theorem readGo_succ_cons (fuel : Nat) (b s : List Nat)
    (h : s.take (LINE_BUFFER_SIZE - b.length - 1) ≠ []) :
    readGo (fuel + 1) b s
      = ((handle_lines (b ++ s.take (LINE_BUFFER_SIZE - b.length - 1))).1
          ++ (readGo fuel (handle_lines (b ++ s.take (LINE_BUFFER_SIZE - b.length - 1))).2
              (s.drop (LINE_BUFFER_SIZE - b.length - 1))).1,
        (readGo fuel (handle_lines (b ++ s.take (LINE_BUFFER_SIZE - b.length - 1))).2
            (s.drop (LINE_BUFFER_SIZE - b.length - 1))).2.1,
        (readGo fuel (handle_lines (b ++ s.take (LINE_BUFFER_SIZE - b.length - 1))).2
            (s.drop (LINE_BUFFER_SIZE - b.length - 1))).2.2) := by
  simp only [readGo]
  rw [if_neg h]

theorem readGo_buffer_inv : ∀ (fuel : Nat) (b s : List Nat),
    b.length < LINE_BUFFER_SIZE - 1 →
    (readGo fuel b s).2.1.length < LINE_BUFFER_SIZE - 1 := by
  intro fuel
  induction fuel with
  | zero => intro b s h; exact h
  | succ fuel ih =>
    intro b s h
    by_cases hc : s.take (LINE_BUFFER_SIZE - b.length - 1) = []
    · rw [readGo_succ_nil fuel b s hc]; exact h
    · rw [readGo_succ_cons fuel b s hc]
      exact ih _ _ (handle_lines_residual _)

theorem readLoop_spec (b s : List Nat)
    (hb0 : ∀ x ∈ b, x ≠ 0) (hb10 : 10 ∉ b) (hs0 : ∀ x ∈ s, x ≠ 0)
    (hblen : b.length < LINE_BUFFER_SIZE - 1)
    (hres : ∀ n, (lastSeg (b ++ s.take n)).length < LINE_BUFFER_SIZE - 1) :
    readLoop b s = ((splitLines (b ++ s)).dropLast, lastSeg (b ++ s), []) :=
  readGo_spec (s.length + 1) s b (Nat.lt_succ_self _) hb0 hb10 hs0 hblen hres

theorem feedChunks_spec : ∀ (cs : List (List Nat)) (b : List Nat),
    (∀ x ∈ b, x ≠ 0) → 10 ∉ b → b.length < LINE_BUFFER_SIZE - 1 →
    (∀ x ∈ cs.flatten, x ≠ 0) →
    (∀ n, (lastSeg (b ++ (cs.flatten).take n)).length < LINE_BUFFER_SIZE - 1) →
    feedChunks b cs
      = ((splitLines (b ++ cs.flatten)).dropLast, lastSeg (b ++ cs.flatten)) := by
  intro cs
  induction cs with
  | nil =>
    intro b hb0 hb10 hblen hj hres
    simp [feedChunks, splitLines_of_not_mem hb10, lastSeg_of_not_mem hb10]
  | cons c cs ih =>
    intro b hb0 hb10 hblen hj hres
    have hc0 : ∀ x ∈ c, x ≠ 0 := by
      intro x hx
      exact hj x (by rw [List.flatten_cons]; exact List.mem_append_left _ hx)
    have hresc : ∀ n, (lastSeg (b ++ c.take n)).length < LINE_BUFFER_SIZE - 1 := by
      intro n
      by_cases hn : n ≤ c.length
      · have h1 : ((c :: cs).flatten).take n = c.take n := by
          rw [List.flatten_cons, List.take_append_of_le_length hn]
        have h2 := hres n
        rwa [h1] at h2
      · have h1 : c.take n = c := List.take_of_length_le (by omega)
        have h2 := hres c.length
        rw [List.flatten_cons, List.take_left] at h2
        rwa [h1]
    have hrl := readLoop_spec b c hb0 hb10 hc0 hblen hresc
    have hj' : ∀ x ∈ cs.flatten, x ≠ 0 := by
      intro x hx
      exact hj x (by rw [List.flatten_cons]; exact List.mem_append_right _ hx)
    have hres1 : ∀ n,
        (lastSeg (lastSeg (b ++ c) ++ (cs.flatten).take n)).length
          < LINE_BUFFER_SIZE - 1 := by
      intro n
      rw [← lastSeg_append, List.append_assoc]
      have h1 : c ++ (cs.flatten).take n = ((c :: cs).flatten).take (c.length + n) := by
        rw [List.flatten_cons, List.take_append]
      rw [h1]
      exact hres (c.length + n)
    have hlen1 : (lastSeg (b ++ c)).length < LINE_BUFFER_SIZE - 1 := by
      have h2 := hresc c.length
      rwa [List.take_length] at h2
    have hb1 : ∀ x ∈ lastSeg (b ++ c), x ≠ 0 := by
      intro x hx
      rcases List.mem_append.mp (mem_of_mem_lastSeg hx) with h | h
      · exact hb0 x h
      · exact hc0 x h
    have hih := ih (lastSeg (b ++ c)) hb1 (not_mem_lastSeg _) hlen1 hj' hres1
    simp only [feedChunks, hrl, hih]
    rw [← dropLast_splitLines_append, ← lastSeg_append, List.append_assoc,
      ← List.flatten_cons]

/-! ### Claim theorems for the line assembler -/

/-- Claim C1 (amended): for every NUL-free byte sequence fed to the line
assembler incrementally in arbitrary chunk sizes, whose concatenation ends in
a newline (or is empty), with the residual after the last newline of every
prefix staying below the overflow threshold `LINE_BUFFER_SIZE - 1`, the
ordered sequence of byte spans handed to `handle_line` equals the sequence
obtained by splitting the concatenation on newline without the trailing empty
segment (i.e. all segments but the last). -/
theorem line_split_correctness (chunks : List (List Nat))
    (h0 : ∀ x ∈ chunks.flatten, x ≠ 0)
    (hres : ∀ n, (lastSeg ((chunks.flatten).take n)).length < LINE_BUFFER_SIZE - 1)
    (_hend : chunks.flatten = [] ∨ (chunks.flatten).getLast? = some 10) :
    (feedChunks [] chunks).1 = (splitLines chunks.flatten).dropLast := by
  have h := feedChunks_spec chunks [] (by simp) (by simp)
    (by simp [LINE_BUFFER_SIZE]) h0 (by simpa using hres)
  rw [List.nil_append] at h
  rw [h]

/-- Claim C1 counterexample: the claim as frozen quantifies over every byte
sequence, but a NUL byte stops the C `strchr` scan, so feeding the two bytes
0, 10 (= "\x00\n") emits nothing, while splitting on newline (sans the
trailing empty segment) yields the one-element sequence [[0]]. -/
theorem line_split_counter :
    (feedChunks [] [[0, 10]]).1 = []
    ∧ (splitLines [0, 10]).dropLast = [[0]]
    ∧ (feedChunks [] [[0, 10]]).1 ≠ (splitLines [0, 10]).dropLast := by
  refine ⟨?_, ?_, ?_⟩ <;> decide

/-- Claim C1 witness: feeding the chunk [97, 10] (= "a\n") satisfies all
hypotheses and emits exactly [[97]]. -/
theorem line_split_correctness_witness :
    (∀ x ∈ ([[97, 10]] : List (List Nat)).flatten, x ≠ 0)
    ∧ (∀ n, (lastSeg ((([[97, 10]] : List (List Nat)).flatten).take n)).length
        < LINE_BUFFER_SIZE - 1)
    ∧ (([[97, 10]] : List (List Nat)).flatten = []
        ∨ (([[97, 10]] : List (List Nat)).flatten).getLast? = some 10)
    ∧ (feedChunks [] [[97, 10]]).1
        = (splitLines ([[97, 10]] : List (List Nat)).flatten).dropLast := by
  have hres : ∀ n, (lastSeg ((([[97, 10]] : List (List Nat)).flatten).take n)).length
      < LINE_BUFFER_SIZE - 1 := by
    intro n
    have h1 := lastSeg_length_le ((([[97, 10]] : List (List Nat)).flatten).take n)
    have h2 := List.length_take_le' n (([[97, 10]] : List (List Nat)).flatten)
    have h3 : (([[97, 10]] : List (List Nat)).flatten).length = 2 := by decide
    have h4 : LINE_BUFFER_SIZE = 4096 := rfl
    omega
  exact ⟨by decide, hres, by decide,
    line_split_correctness [[97, 10]] (by decide) hres (by decide)⟩

/-- Claim C2 (amended): feeding a single delimiter-free, NUL-free line of
length `L` with `4096 ≤ L ≤ 8189` (at least the buffer capacity, but short
enough that the remainder after the forced split does not fill the buffer
again) yields exactly one forced-split emission, of length
`LINE_BUFFER_SIZE - 1 = 4095`; afterwards the buffer holds the remaining
bytes as a fresh line, and no bytes are lost: the emission concatenated with
the residual buffer is the whole input. -/
theorem forced_split (input : List Nat)
    (h10 : 10 ∉ input) (h0 : ∀ x ∈ input, x ≠ 0)
    (hlow : 4096 ≤ input.length) (hhigh : input.length ≤ 8189) :
    readLoop [] input = ([input.take 4095], input.drop 4095, [])
    ∧ (input.take 4095).length = 4095
    ∧ input.take 4095 ++ input.drop 4095 = input := by
  obtain ⟨M, hM⟩ : ∃ M, input.length = M + 4096 := ⟨input.length - 4096, by omega⟩
  have hM2 : M ≤ 4093 := by omega
  have hC : LINE_BUFFER_SIZE = 4096 := rfl
  have hk1 : LINE_BUFFER_SIZE - ([] : List Nat).length - 1 = 4095 := rfl
  have hlt : (input.take 4095).length = 4095 := List.length_take_of_le (by omega)
  have hne1 : input.take (LINE_BUFFER_SIZE - ([] : List Nat).length - 1) ≠ [] := by
    rw [hk1]
    intro hcon
    rw [hcon] at hlt
    simp only [List.length_nil] at hlt
    omega
  have h0t : ∀ x ∈ input.take 4095, x ≠ 0 := fun x hx => h0 x (List.take_subset _ _ hx)
  have h10t : 10 ∉ input.take 4095 := fun hx => h10 (List.take_subset _ _ hx)
  have hov : handle_lines (input.take 4095) = ([input.take 4095], []) :=
    handle_lines_overflow h0t h10t (by rw [hlt]; omega)
  have hr0 : ∀ x ∈ input.drop 4095, x ≠ 0 := fun x hx => h0 x (List.drop_subset _ _ hx)
  have hr10 : 10 ∉ input.drop 4095 := fun hx => h10 (List.drop_subset _ _ hx)
  have hres2 : ∀ n, (lastSeg (([] : List Nat) ++ (input.drop 4095).take n)).length
      < LINE_BUFFER_SIZE - 1 := by
    intro n
    rw [List.nil_append,
      lastSeg_of_not_mem (fun hx => hr10 (List.take_subset _ _ hx))]
    have h1 := List.length_take_le' n (input.drop 4095)
    rw [List.length_drop] at h1
    have hC : LINE_BUFFER_SIZE = 4096 := rfl
    omega
  have hstep2 := readGo_spec (M + 4096) (input.drop 4095) []
    (by rw [List.length_drop]; omega) (by simp) (by simp) hr0
    (by simp [LINE_BUFFER_SIZE]) hres2
  rw [List.nil_append, splitLines_of_not_mem hr10, lastSeg_of_not_mem hr10] at hstep2
  simp only [List.dropLast_single] at hstep2
  refine ⟨?_, hlt, List.take_append_drop _ _⟩
  unfold readLoop
  rw [hM, readGo_succ_cons (M + 4096) [] input hne1]
  simp only [hk1, List.nil_append, hov, hstep2]
  simp

/-- Claim C2 counterexample: the claim as frozen covers every length at least
the capacity, but a delimiter-free line of length 8190 = 2 * 4095 overflows
the buffer twice, producing two forced-split emissions rather than exactly
one. -/
theorem forced_split_counter :
    (readLoop [] (List.replicate 8190 97)).1.length = 2
    ∧ (readLoop [] (List.replicate 8190 97)).1.length ≠ 1 := by
  have hC : LINE_BUFFER_SIZE = 4096 := rfl
  have hk1 : LINE_BUFFER_SIZE - ([] : List Nat).length - 1 = 4095 := rfl
  have hlt1 : ((List.replicate 8190 (97 : Nat)).take 4095).length = 4095 :=
    List.length_take_of_le (by rw [List.length_replicate]; omega)
  have hne1 : (List.replicate 8190 97).take (LINE_BUFFER_SIZE - ([] : List Nat).length - 1)
      ≠ [] := by
    rw [hk1]
    intro hcon
    rw [hcon] at hlt1
    exact absurd hlt1 (by decide)
  have ht1 : (List.replicate 8190 97).take 4095 = List.replicate 4095 (97 : Nat) := by
    rw [List.take_replicate]
    norm_num
  have hd1 : (List.replicate 8190 97).drop 4095 = List.replicate 4095 (97 : Nat) := by
    rw [List.drop_replicate]
  have hrep0 : ∀ x ∈ List.replicate 4095 (97 : Nat), x ≠ 0 := by
    intro x hx
    rw [List.mem_replicate] at hx
    omega
  have hrep10 : 10 ∉ List.replicate 4095 (97 : Nat) := by
    rw [List.mem_replicate]
    omega
  have hov : handle_lines (List.replicate 4095 (97 : Nat))
      = ([List.replicate 4095 (97 : Nat)], []) :=
    handle_lines_overflow hrep0 hrep10 (by rw [List.length_replicate]; omega)
  have hlt2 : ((List.replicate 4095 (97 : Nat)).take 4095).length = 4095 :=
    List.length_take_of_le (by rw [List.length_replicate])
  have hne2 : (List.replicate 4095 (97 : Nat)).take
      (LINE_BUFFER_SIZE - ([] : List Nat).length - 1) ≠ [] := by
    rw [hk1]
    intro hcon
    rw [hcon] at hlt2
    exact absurd hlt2 (by decide)
  have ht2 : (List.replicate 4095 (97 : Nat)).take 4095 = List.replicate 4095 (97 : Nat) := by
    rw [List.take_replicate]
    norm_num
  have hd2 : (List.replicate 4095 (97 : Nat)).drop 4095 = ([] : List Nat) := by
    rw [List.drop_replicate]
    simp only [Nat.sub_self, List.replicate_zero]
  have hlen : (List.replicate 8190 (97 : Nat)).length = 8190 :=
    List.length_replicate 8190 97
  have inner2 : readGo 8189 [] ([] : List Nat) = ([], [], []) := by
    rw [show (8189 : Nat) = 8188 + 1 by omega]
    exact readGo_succ_nil 8188 [] [] List.take_nil
  have inner : readGo 8190 [] (List.replicate 4095 (97 : Nat))
      = ([List.replicate 4095 (97 : Nat)], [], []) := by
    rw [show (8190 : Nat) = 8189 + 1 by omega]
    rw [readGo_succ_cons 8189 [] (List.replicate 4095 (97 : Nat)) hne2]
    simp only [hk1, List.nil_append, ht2, hd2, hov, inner2]
    rfl
  have e1 : readLoop [] (List.replicate 8190 97)
      = ([List.replicate 4095 (97 : Nat), List.replicate 4095 (97 : Nat)], [], []) := by
    unfold readLoop
    rw [hlen, readGo_succ_cons 8190 [] (List.replicate 8190 97) hne1]
    simp only [hk1, List.nil_append, ht1, hd1, hov, inner]
    rfl
  rw [e1]
  exact ⟨rfl, by decide⟩

/-- Claim C2 witness: the line of 4096 'a' bytes satisfies the hypotheses of
the amended claim and produces exactly the forced-split emission of its first
4095 bytes, with the one remaining byte left in the buffer. -/
theorem forced_split_witness :
    (10 ∉ List.replicate 4096 97)
    ∧ (∀ x ∈ List.replicate 4096 97, x ≠ 0)
    ∧ 4096 ≤ (List.replicate 4096 97).length
    ∧ (List.replicate 4096 97).length ≤ 8189
    ∧ readLoop [] (List.replicate 4096 97)
        = ([(List.replicate 4096 97).take 4095], (List.replicate 4096 97).drop 4095, []) := by
  have h10 : 10 ∉ List.replicate 4096 (97 : Nat) := by
    rw [List.mem_replicate]
    omega
  have h0 : ∀ x ∈ List.replicate 4096 (97 : Nat), x ≠ 0 := by
    intro x hx
    rw [List.mem_replicate] at hx
    omega
  have hlen : (List.replicate 4096 (97 : Nat)).length = 4096 :=
    List.length_replicate 4096 97
  exact ⟨h10, h0, by rw [hlen], by rw [hlen]; omega,
    (forced_split _ h10 h0 (by rw [hlen]) (by rw [hlen]; omega)).1⟩

/-- Claim C10: the write cursor stays strictly below `LINE_BUFFER_SIZE`: a
read accepts at most `LINE_BUFFER_SIZE - cursor - 1` bytes, so the data plus
the terminating NUL always fit in the fixed buffer, and after `handle_lines`
runs the cursor is back strictly below `LINE_BUFFER_SIZE - 1`, an invariant
preserved by the whole read loop. -/
theorem buffer_safety (b s : List Nat) (h : b.length + 1 < LINE_BUFFER_SIZE) :
    (s.take (LINE_BUFFER_SIZE - b.length - 1)).length ≤ LINE_BUFFER_SIZE - b.length - 1
    ∧ (b ++ s.take (LINE_BUFFER_SIZE - b.length - 1)).length + 1 ≤ LINE_BUFFER_SIZE
    ∧ (handle_lines (b ++ s.take (LINE_BUFFER_SIZE - b.length - 1))).2.length + 1
        < LINE_BUFFER_SIZE
    ∧ ∀ fuel, (readGo fuel b s).2.1.length + 1 < LINE_BUFFER_SIZE := by
  have hC : LINE_BUFFER_SIZE = 4096 := rfl
  refine ⟨List.length_take_le _ _, ?_, ?_, ?_⟩
  · rw [List.length_append]
    have := List.length_take_le (LINE_BUFFER_SIZE - b.length - 1) s
    omega
  · have := handle_lines_residual (b ++ s.take (LINE_BUFFER_SIZE - b.length - 1))
    omega
  · intro fuel
    have := readGo_buffer_inv fuel b s (by omega)
    omega

/-! ### Claim C6: end-to-end create scenario -/

/-- Claim C6: starting a watch on the not-yet-existing path /tmp/log.txt
creates a directory watch for /tmp (a registry entry with `is_file = false`
and a live handle) while the file entry stays Unwatched; after the create
event (file still empty) and the modify event (file content "hello\n"),
exactly one line "hello" has been handed to `handle_line` and the file entry
is Watching with offset 6. -/
theorem end_to_end_create :
    c6Start.registry.length = 2
    ∧ (c6Start.registry[1]?).map (fun e => (e.name, e.is_file, e.watch_desc.isSome))
        = some (c6Dir, false, true)
    ∧ (c6Start.registry[0]?).map (fun e => (e.name, e.fd.isSome, e.watch_desc.isSome))
        = some (c6Path, false, false)
    ∧ c6Final.2 = [[104, 101, 108, 108, 111]]
    ∧ (c6Final.1.registry[0]?).map (fun e => (e.file_offset, e.fd.isSome, e.watch_desc.isSome))
        = some (6, true, true) := by
  refine ⟨?_, ?_, ?_, ?_, ?_⟩ <;> decide

/-! ### Claim C9: startup behaviour on an empty argument list -/

/-- Claim C9 (amended): the only pre-loop exit is the event-source creation
failure; `init_files` cannot fail, so for every argument list — including the
empty one — the process proceeds into the event loop. -/
theorem startup_exit (args : List (List Nat)) (fs : List Nat → Option Nat)
    (wok : List Nat → Bool) :
    main_pre false args fs wok = none
    ∧ (main_pre true args fs wok).isSome = true :=
  ⟨rfl, rfl⟩

/-- Claim C9 counterexample: with a working event source and zero path
arguments the process does not exit before the loop: `main_pre` yields the
empty-registry world and enters the infinite loop, while the claim demands a
non-zero exit. -/
theorem startup_exit_counter :
    main_pre true [] (fun _ => none) (fun _ => true)
      = some { registry := [], nextWd := 0, nextFd := 0 }
    ∧ (main_pre true [] (fun _ => none) (fun _ => true)).isSome = true := by
  exact ⟨rfl, rfl⟩

/-! ### Registry helper lemmas -/

theorem lt_length_of_get? {l : List Entry} {i : Nat} {e : Entry}
    (h : l[i]? = some e) : i < l.length := by
  rcases List.getElem?_eq_some_iff.mp h with ⟨h1, _⟩
  exact h1

/-- `wait_for_parent` only ever writes the `parent` field of entry `i` (and
possibly appends a directory entry): every other field of entry `i` is
preserved. -/
theorem wait_for_parent_fields (w : World) (i : Nat) (wok : List Nat → Bool) {e : Entry}
    (he : w.registry[i]? = some e) :
    ∃ e1, (wait_for_parent w i wok).registry[i]? = some e1
      ∧ e1.watch_desc = e.watch_desc ∧ e1.name = e.name ∧ e1.fd = e.fd
      ∧ e1.file_offset = e.file_offset ∧ e1.buffer = e.buffer
      ∧ e1.is_file = e.is_file := by
  have hi := lt_length_of_get? he
  cases hpar : e.parent with
  | some q =>
    refine ⟨e, ?_, rfl, rfl, rfl, rfl, rfl, rfl⟩
    simp only [wait_for_parent, he, hpar, Option.isSome_some, if_true]
  | none =>
    simp only [wait_for_parent, he, hpar, Option.isSome_none, Bool.false_eq_true, if_false]
    cases hsl : lastSlashIdx e.name with
    | none => exact ⟨e, he, rfl, rfl, rfl, rfl, rfl, rfl⟩
    | some k =>
      cases hf : find_by_name w.registry (e.name.take k) with
      | some j =>
        refine ⟨{ e with parent := some j }, ?_, rfl, rfl, rfl, rfl, rfl, rfl⟩
        simp only [hf, setEntry]
        exact List.getElem?_set_self hi
      | none =>
        refine ⟨{ e with parent := some w.registry.length }, ?_, rfl, rfl, rfl, rfl, rfl, rfl⟩
        simp only [hf, setEntry, init_watch]
        exact List.getElem?_set_self (by simp only [List.length_append,
          List.length_cons, List.length_nil]; omega)

theorem wait_for_parent_nextFd (w : World) (i : Nat) (wok : List Nat → Bool) :
    (wait_for_parent w i wok).nextFd = w.nextFd := by
  unfold wait_for_parent
  cases h1 : w.registry[i]? with
  | none => rfl
  | some e =>
    cases hpar : e.parent with
    | some q => simp [hpar]
    | none =>
      simp only [hpar, Option.isSome_none, Bool.false_eq_true, if_false]
      cases hsl : lastSlashIdx e.name with
      | none => rfl
      | some k =>
        cases hf : find_by_name w.registry (e.name.take k) with
        | some j => simp [hf, setEntry]
        | none => simp [hf, setEntry, init_watch]

/-! ### Claim C3: truncation resets the read position, nothing else -/

/-- Claim C3: when a modify event arrives while the file size is strictly
below the stored offset, `read_watch` restarts reading at offset 0 (it feeds
the whole file content, from byte 0, through the existing assembler buffer)
and performs no reinit: the entry's watch handle and descriptor are exactly
as before. -/
theorem truncation_reset (w : World) (i : Nat) (contents : List Nat) (e : Entry)
    (he : w.registry[i]? = some e) (h : contents.length < e.file_offset) :
    read_watch w i contents
      = (setEntry w i
          { e with
            buffer := (readLoop e.buffer contents).2.1,
            file_offset := contents.length - (readLoop e.buffer contents).2.2.length },
         (readLoop e.buffer contents).1)
    ∧ ((read_watch w i contents).1.registry[i]?).map Entry.watch_desc = some e.watch_desc
    ∧ ((read_watch w i contents).1.registry[i]?).map Entry.fd = some e.fd := by
  have hi := lt_length_of_get? he
  have h1 : read_watch w i contents
      = (setEntry w i
          { e with
            buffer := (readLoop e.buffer contents).2.1,
            file_offset := contents.length - (readLoop e.buffer contents).2.2.length },
         (readLoop e.buffer contents).1) := by
    simp only [read_watch, he, if_pos h, List.drop_zero, Nat.zero_add]
  refine ⟨h1, ?_, ?_⟩ <;>
    rw [h1] <;>
    simp [setEntry, List.getElem?_set_self hi]

/-- Claim C3 witness: a one-entry registry at offset 5 whose file now holds
only the two bytes 120, 10: the read starts at 0, emits the line [120], and
keeps handle `some 7` and descriptor `some 3`. -/
theorem truncation_reset_witness :
    ((c3World.registry)[0]? = some c3Entry)
    ∧ ([120, 10] : List Nat).length < c3Entry.file_offset
    ∧ ((read_watch c3World 0 [120, 10]).1.registry[0]?).map Entry.watch_desc
        = some c3Entry.watch_desc
    ∧ ((read_watch c3World 0 [120, 10]).1.registry[0]?).map Entry.fd
        = some c3Entry.fd := by
  have h := truncation_reset c3World 0 [120, 10] c3Entry (by decide) (by decide)
  exact ⟨by decide, by decide, h.2.1, h.2.2⟩

/-! ### Lemmas about `lastSlashIdx`, `find_by_name` and `List.set` -/

theorem lastSlashIdx_lt {l : List Nat} : ∀ {k : Nat}, lastSlashIdx l = some k →
    k < l.length := by
  induction l with
  | nil => intro k h; simp [lastSlashIdx] at h
  | cons b t ih =>
    intro k h
    simp only [lastSlashIdx] at h
    cases h2 : lastSlashIdx t with
    | some k2 =>
      rw [h2] at h
      have h3 := ih h2
      have h4 := Option.some.inj h
      simp only [List.length_cons]
      omega
    | none =>
      rw [h2] at h
      by_cases hb : b = 47
      · rw [if_pos hb] at h
        have h4 := Option.some.inj h
        simp only [List.length_cons]
        omega
      · rw [if_neg hb] at h
        exact absurd h (by simp)

theorem find_by_name_none {l : List Entry} {n : List Nat}
    (h : ∀ e ∈ l, e.name ≠ n) : find_by_name l n = none := by
  induction l with
  | nil => rfl
  | cons e t ih =>
    simp only [find_by_name]
    rw [if_neg (h e (List.mem_cons_self _ _)),
      ih (fun x hx => h x (List.mem_cons_of_mem _ hx))]
    rfl

theorem find_by_name_concat {l : List Entry} {n : List Nat} {x : Entry}
    (h : ∀ e ∈ l, e.name ≠ n) (hx : x.name = n) :
    find_by_name (l ++ [x]) n = some l.length := by
  induction l with
  | nil => simp [find_by_name, hx]
  | cons e t ih =>
    rw [List.cons_append]
    simp only [find_by_name]
    rw [if_neg (h e (List.mem_cons_self _ _)),
      ih (fun y hy => h y (List.mem_cons_of_mem _ hy))]
    rfl

/-- The branch of `wait_for_parent` in which the directory entry already
exists and is linked to. -/
theorem wfp_found {w : World} {i : Nat} (wok : List Nat → Bool) {e : Entry}
    {k : Nat} {d : List Nat} {L : Nat}
    (he : w.registry[i]? = some e) (hp : e.parent = none)
    (hk : lastSlashIdx e.name = some k) (hd : e.name.take k = d)
    (hf : find_by_name w.registry d = some L) :
    wait_for_parent w i wok = setEntry w i { e with parent := some L } := by
  simp only [wait_for_parent, he, hp, Option.isSome_none, Bool.false_eq_true, if_false,
    hk, hd, hf]

/-- The branch of `wait_for_parent` in which a fresh directory entry is
created, appended, and linked to. -/
theorem wfp_created {w : World} {i : Nat} (wok : List Nat → Bool) {e : Entry}
    {k : Nat} {d : List Nat}
    (he : w.registry[i]? = some e) (hp : e.parent = none)
    (hk : lastSlashIdx e.name = some k) (hd : e.name.take k = d)
    (hf : find_by_name w.registry d = none) :
    wait_for_parent w i wok
      = setEntry (init_watch w d false wok) i { e with parent := some w.registry.length } := by
  simp only [wait_for_parent, he, hp, Option.isSome_none, Bool.false_eq_true, if_false,
    hk, hd, hf]

theorem getElem?_concat_len {l : List Entry} {x : Entry} {m : Nat} (h : m = l.length) :
    (l ++ [x])[m]? = some x := by
  subst h
  exact List.getElem?_concat_length l x

/-! ### Claim C7: one directory watch per parent directory -/

/-- Claim C7: when two file entries in the same directory `d` both resolve
their parent (in either order — the indices `i` and `j` are arbitrary), and
no registry entry is named `d` beforehand, the result contains exactly one
entry named `d`; it is a directory entry, it sits at the index that was the
registry length before the first call, and both file entries' `parent`
fields point at that one index — the second call found and reused the
first call's entry. -/
theorem parent_watch_unique (w : World) (i j : Nat) (ei ej : Entry) (d : List Nat)
    (ki kj : Nat) (wok : List Nat → Bool)
    (hij : i ≠ j)
    (hi : w.registry[i]? = some ei) (hj : w.registry[j]? = some ej)
    (hpi : ei.parent = none) (hpj : ej.parent = none)
    (hki : lastSlashIdx ei.name = some ki) (hkj : lastSlashIdx ej.name = some kj)
    (hdi : ei.name.take ki = d) (hdj : ej.name.take kj = d)
    (hnd : ∀ e ∈ w.registry, e.name ≠ d) :
    ((wait_for_parent (wait_for_parent w i wok) j wok).registry.countP
        (fun e => e.name == d) = 1)
    ∧ ((wait_for_parent (wait_for_parent w i wok) j wok).registry[i]?).map Entry.parent
        = some (some w.registry.length)
    ∧ ((wait_for_parent (wait_for_parent w i wok) j wok).registry[j]?).map Entry.parent
        = some (some w.registry.length)
    ∧ ((wait_for_parent (wait_for_parent w i wok) j wok).registry[w.registry.length]?).map
        (fun e => (e.name, e.is_file)) = some (d, false) := by
  have hiL := lt_length_of_get? hi
  have hjL := lt_length_of_get? hj
  have hfind1 : find_by_name w.registry d = none := find_by_name_none hnd
  have hw1 := wfp_created wok hi hpi hki hdi hfind1
  have hreg1 : (wait_for_parent w i wok).registry
      = (w.registry.set i { ei with parent := some w.registry.length })
        ++ [{ watch_desc := if wok d then some w.nextWd else none, parent := none,
              name := d, fd := none, file_offset := 0, buffer := [], is_file := false }] := by
    rw [hw1]
    simp only [setEntry, init_watch]
    rw [List.set_append_left _ _ hiL]
    simp
  have hj1 : (wait_for_parent w i wok).registry[j]? = some ej := by
    rw [hreg1, List.getElem?_append_left (by simp only [List.length_set]; exact hjL),
      List.getElem?_set_ne hij, hj]
  have hnames1 : ∀ e ∈ w.registry.set i { ei with parent := some w.registry.length },
      e.name ≠ d := by
    intro e he
    rcases List.mem_or_eq_of_mem_set he with h | h
    · exact hnd e h
    · rw [h]
      have hklt := lastSlashIdx_lt hki
      intro hcon
      have h2 : ei.name.length = d.length := by rw [hcon]
      have h3 : d.length = ki := by
        rw [← hdi, List.length_take]
        omega
      omega
  have hfind2 : find_by_name (wait_for_parent w i wok).registry d
      = some w.registry.length := by
    rw [hreg1, find_by_name_concat hnames1 rfl, List.length_set]
  have hw2 := wfp_found wok hj1 hpj hkj hdj hfind2
  have hreg2 : (wait_for_parent (wait_for_parent w i wok) j wok).registry
      = ((w.registry.set i { ei with parent := some w.registry.length }).set j
          { ej with parent := some w.registry.length })
        ++ [{ watch_desc := if wok d then some w.nextWd else none, parent := none,
              name := d, fd := none, file_offset := 0, buffer := [], is_file := false }] := by
    rw [hw2]
    simp only [setEntry]
    rw [hreg1, List.set_append_left _ _ (by simp only [List.length_set]; exact hjL)]
  have hnames2 : ∀ e ∈ (w.registry.set i { ei with parent := some w.registry.length }).set j
      { ej with parent := some w.registry.length }, e.name ≠ d := by
    intro e he
    rcases List.mem_or_eq_of_mem_set he with h | h
    · exact hnames1 e h
    · rw [h]
      have hklt := lastSlashIdx_lt hkj
      intro hcon
      have h2 : ej.name.length = d.length := by rw [hcon]
      have h3 : d.length = kj := by
        rw [← hdj, List.length_take]
        omega
      omega
  refine ⟨?_, ?_, ?_, ?_⟩
  · rw [hreg2, List.countP_append,
      List.countP_eq_zero.mpr (fun e he => by simp only [beq_iff_eq]; exact hnames2 e he)]
    simp [List.countP_cons]
  · rw [hreg2, List.getElem?_append_left (by simp only [List.length_set]; exact hiL),
      List.getElem?_set_ne (Ne.symm hij), List.getElem?_set_self hiL]
    rfl
  · rw [hreg2, List.getElem?_append_left (by simp only [List.length_set]; exact hjL),
      List.getElem?_set_self (by simp only [List.length_set]; exact hjL)]
    rfl
  · rw [hreg2, getElem?_concat_len (by simp only [List.length_set])]
    rfl

/-- Claim C7 witness: the two file entries "a/x" and "a/y" resolving their
parents one after the other yield exactly one entry named "a" (= [97]), a
directory entry at index 2, and both parents point at index 2. -/
theorem parent_watch_unique_witness :
    ((0 : Nat) ≠ 1)
    ∧ (c7World.registry[0]? = some c7EntryX)
    ∧ (c7World.registry[1]? = some c7EntryY)
    ∧ c7EntryX.parent = none ∧ c7EntryY.parent = none
    ∧ lastSlashIdx c7EntryX.name = some 1
    ∧ lastSlashIdx c7EntryY.name = some 1
    ∧ c7EntryX.name.take 1 = [97] ∧ c7EntryY.name.take 1 = [97]
    ∧ (∀ e ∈ c7World.registry, e.name ≠ [97])
    ∧ ((wait_for_parent (wait_for_parent c7World 0 (fun _ => true)) 1
        (fun _ => true)).registry.countP (fun e => e.name == [97]) = 1)
    ∧ ((wait_for_parent (wait_for_parent c7World 0 (fun _ => true)) 1
        (fun _ => true)).registry[0]?).map Entry.parent = some (some 2)
    ∧ ((wait_for_parent (wait_for_parent c7World 0 (fun _ => true)) 1
        (fun _ => true)).registry[1]?).map Entry.parent = some (some 2) := by
  have h := parent_watch_unique c7World 0 1 c7EntryX c7EntryY [97] 1 1 (fun _ => true)
    (by decide) (by decide) (by decide) (by decide) (by decide) (by decide) (by decide)
    (by decide) (by decide) (by decide)
  exact ⟨by decide, by decide, by decide, by decide, by decide, by decide, by decide,
    by decide, by decide, by decide, h.1, h.2.1, h.2.2.1⟩

/-! ### Claim C4: which entries `file_appeared` re-enables -/

theorem set_of_getElem? {α : Type} {l : List α} : ∀ {i : Nat} {a : α},
    l[i]? = some a → l.set i a = l := by
  induction l with
  | nil => intro i a h; simp at h
  | cons b t ih =>
    intro i a h
    cases i with
    | zero =>
      simp only [List.getElem?_cons_zero] at h
      rw [Option.some.inj h]
      rfl
    | succ i =>
      simp only [List.getElem?_cons_succ] at h
      simp [ih h]

/-- The matching test of `file_appeared` holds exactly on paths that are the
directory path, any number of slashes (including zero), then the child name
— provided the child name does not itself begin with a slash. -/
theorem matches_child_iff {dir file child : List Nat} (hc : child.head? ≠ some 47) :
    matches_child dir file child = true
      ↔ ∃ k, file = dir ++ List.replicate k 47 ++ child := by
  unfold matches_child
  rw [Bool.and_eq_true, List.isPrefixOf_iff_prefix, beq_iff_eq]
  constructor
  · rintro ⟨⟨t, ht⟩, hdrop⟩
    subst ht
    rw [List.drop_left] at hdrop
    refine ⟨(t.takeWhile (fun b => b == 47)).length, ?_⟩
    have h1 : t.takeWhile (fun b => b == 47) ++ t.dropWhile (fun b => b == 47) = t :=
      List.takeWhile_append_dropWhile _ _
    have h2 : t.takeWhile (fun b => b == 47)
        = List.replicate (t.takeWhile (fun b => b == 47)).length 47 := by
      apply List.eq_replicate_of_mem
      intro b hb
      have h3 := List.mem_takeWhile_imp hb
      simpa using h3
    rw [List.append_assoc]
    congr 1
    rw [← h2, ← hdrop, h1]
  · rintro ⟨k, rfl⟩
    refine ⟨⟨List.replicate k 47 ++ child, (List.append_assoc _ _ _).symm⟩, ?_⟩
    rw [List.append_assoc, List.drop_left]
    have hstep : (List.replicate k 47 ++ child).dropWhile (fun b => b == 47)
        = child.dropWhile (fun b => b == 47) := by
      induction k with
      | zero => simp
      | succ m ih =>
        rw [List.replicate_succ, List.cons_append, List.dropWhile_cons]
        simp only [beq_self_eq_true, if_true]
        exact ih
    rw [hstep]
    cases child with
    | nil => rfl
    | cons c cs =>
      have hc47 : (c == 47) = false := by
        rw [beq_eq_false_iff_ne]
        intro hcc
        exact hc (by rw [hcc]; rfl)
      rw [List.dropWhile_cons, hc47]
      simp

/-- `wait_for_parent` is a no-op whenever the entry already has a parent or
its path has no slash. -/
theorem wfp_id {w : World} {i : Nat} {wok : List Nat → Bool}
    (h : ∀ e, w.registry[i]? = some e →
      e.parent.isSome = true ∨ lastSlashIdx e.name = none) :
    wait_for_parent w i wok = w := by
  cases h1 : w.registry[i]? with
  | none => simp only [wait_for_parent, h1]
  | some e =>
    cases hpar : e.parent with
    | some q => simp only [wait_for_parent, h1, hpar, Option.isSome_some, if_true]
    | none =>
      rcases h e h1 with hp | hs
      · rw [hpar] at hp
        simp at hp
      · simp only [wait_for_parent, h1, hpar, Option.isSome_none, Bool.false_eq_true,
          if_false, hs]

theorem parentsDone_setEntry {w : World} {i : Nat} {e e' : Entry} (hp : ParentsDone w)
    (he : w.registry[i]? = some e) (hn : e'.name = e.name) (hpar : e'.parent = e.parent) :
    ParentsDone (setEntry w i e') := by
  intro x hx
  simp only [setEntry] at hx
  rcases List.mem_or_eq_of_mem_set hx with h | h
  · exact hp x h
  · rw [h, hn, hpar]
    exact hp e (List.getElem?_mem he)

theorem map_name_setEntry {w : World} {i : Nat} {e e' : Entry}
    (he : w.registry[i]? = some e) (hn : e'.name = e.name) :
    (setEntry w i e').registry.map (fun x => x.name)
      = w.registry.map (fun x => x.name) := by
  simp only [setEntry, List.map_set]
  apply set_of_getElem?
  rw [List.getElem?_map, he, hn]
  rfl

/-- In a parent-resolved registry, `reinit_file` changes no path and
appends nothing, and the registry stays parent-resolved. -/
theorem reinit_shape {w : World} (i : Nat) (fs : List Nat → Option Nat)
    (wok : List Nat → Bool) (hp : ParentsDone w) :
    (reinit_file w i fs wok).registry.map (fun e => e.name)
        = w.registry.map (fun e => e.name)
    ∧ ParentsDone (reinit_file w i fs wok) := by
  cases h1 : w.registry[i]? with
  | none =>
    constructor
    · simp only [reinit_file, h1]
    · simp only [reinit_file, h1]
      exact hp
  | some e =>
    have hi := lt_length_of_get? h1
    have hwaget : (setEntry w i { e with fd := none, watch_desc := none }).registry[i]?
        = some { e with fd := none, watch_desc := none } := by
      simp only [setEntry]
      exact List.getElem?_set_self hi
    have hpa : ParentsDone (setEntry w i { e with fd := none, watch_desc := none }) :=
      parentsDone_setEntry hp h1 rfl rfl
    have hid : wait_for_parent (setEntry w i { e with fd := none, watch_desc := none }) i wok
        = setEntry w i { e with fd := none, watch_desc := none } := by
      apply wfp_id
      intro x hx
      rw [hwaget] at hx
      rw [← Option.some.inj hx]
      exact hp e (List.getElem?_mem h1)
    have hname_wa := map_name_setEntry h1
      (rfl : ({ e with fd := none, watch_desc := none } : Entry).name = e.name)
    simp only [reinit_file, h1, hid, hwaget]
    cases h3 : fs e.name with
    | none =>
      simp only [h3]
      exact ⟨hname_wa, hpa⟩
    | some size =>
      simp only [h3]
      cases hw4 : wok e.name with
      | false =>
        simp only [hw4, Bool.false_eq_true, if_false]
        exact ⟨(map_name_setEntry hwaget (by rfl)).trans hname_wa,
          fun x hx => parentsDone_setEntry hpa hwaget (by rfl) (by rfl) x hx⟩
      | true =>
        simp only [hw4, if_true]
        exact ⟨(map_name_setEntry hwaget (by rfl)).trans hname_wa,
          fun x hx => parentsDone_setEntry hpa hwaget (by rfl) (by rfl) x hx⟩

theorem name_at_eq {w w1 : World}
    (h : w1.registry.map (fun e => e.name) = w.registry.map (fun e => e.name)) (m : Nat) :
    (w1.registry[m]?).map (fun e => e.name) = (w.registry[m]?).map (fun e => e.name) := by
  rw [← List.getElem?_map, ← List.getElem?_map, h]

theorem matches_at_iff {w w1 : World}
    (h : w1.registry.map (fun e => e.name) = w.registry.map (fun e => e.name))
    (m : Nat) (dir child : List Nat) :
    (∃ e, w1.registry[m]? = some e ∧ matches_child dir e.name child = true)
      ↔ ∃ e, w.registry[m]? = some e ∧ matches_child dir e.name child = true := by
  have hm := name_at_eq h m
  cases h1 : w1.registry[m]? with
  | none =>
    rw [h1] at hm
    cases h2 : w.registry[m]? with
    | none => simp
    | some b =>
      rw [h2] at hm
      simp at hm
  | some a =>
    rw [h1] at hm
    cases h2 : w.registry[m]? with
    | none =>
      rw [h2] at hm
      simp at hm
    | some b =>
      rw [h2] at hm
      simp only [Option.map_some'] at hm
      have hm2 := Option.some.inj hm
      constructor
      · rintro ⟨e, he, hmch⟩
        rw [← Option.some.inj he] at hmch
        refine ⟨b, rfl, ?_⟩
        rw [← hm2]
        exact hmch
      · rintro ⟨e, he, hmch⟩
        rw [← Option.some.inj he] at hmch
        refine ⟨a, rfl, ?_⟩
        rw [hm2]
        exact hmch

/-- The scan loop calls `reinit_file` exactly on the indices, from `j` on,
whose entry's path passes the matching test — in a parent-resolved registry,
where the registry length never changes and no path changes. -/
theorem fa_loop_calls (fs : List Nat → Option Nat) (wok : List Nat → Bool)
    (dir child : List Nat) :
    ∀ (fuel : Nat) (w : World) (j : Nat), ParentsDone w →
      w.registry.length ≤ j + fuel → ∀ m,
      (m ∈ (fa_loop fs wok dir child fuel w j).2
        ↔ j ≤ m ∧ ∃ e, w.registry[m]? = some e
            ∧ matches_child dir e.name child = true) := by
  intro fuel
  induction fuel with
  | zero =>
    intro w j hp hlen m
    simp only [fa_loop]
    constructor
    · intro h
      simp at h
    · rintro ⟨hjm, e, he, _⟩
      have h2 := lt_length_of_get? he
      omega
  | succ fuel ih =>
    intro w j hp hlen m
    cases h1 : w.registry[j]? with
    | none =>
      simp only [fa_loop, h1]
      constructor
      · intro h
        simp at h
      · rintro ⟨hjm, e, he, _⟩
        have h2 := lt_length_of_get? he
        have h3 := List.getElem?_eq_none_iff.mp h1
        omega
    | some e =>
      cases hm : matches_child dir e.name child with
      | true =>
        simp only [fa_loop, h1, hm, if_true]
        have hshape := reinit_shape j fs wok hp
        have hlen3 : (reinit_file w j fs wok).registry.length = w.registry.length := by
          have h4 := congrArg List.length hshape.1
          simpa using h4
        have hrec := ih (reinit_file w j fs wok) (j + 1) hshape.2 (by omega) m
        rw [List.mem_cons, hrec, matches_at_iff hshape.1 m dir child]
        constructor
        · rintro (rfl | ⟨hj1, hex⟩)
          · exact ⟨le_refl _, e, h1, hm⟩
          · exact ⟨by omega, hex⟩
        · rintro ⟨hjm, hex⟩
          by_cases hmj : m = j
          · exact Or.inl hmj
          · exact Or.inr ⟨by omega, hex⟩
      | false =>
        simp only [fa_loop, h1, hm, Bool.false_eq_true, if_false]
        have hrec := ih w (j + 1) hp (by omega) m
        rw [hrec]
        constructor
        · rintro ⟨hj1, hex⟩
          exact ⟨by omega, hex⟩
        · rintro ⟨hjm, e2, he2, hm2⟩
          by_cases hmj : m = j
          · subst hmj
            rw [h1] at he2
            rw [← Option.some.inj he2] at hm2
            rw [hm] at hm2
            exact absurd hm2 (by simp)
          · exact ⟨by omega, e2, he2, hm2⟩

/-- Claim C4 (amended): on a create/moved-to event with child name `N` on a
directory entry with path `D`, reinit is called exactly on the registry
entries whose path is `D` followed by any number of slashes (including none)
followed by `N` — i.e. `D` must be a byte prefix and the remainder, with
leading slashes stripped, must equal `N`.  There is no separator check
(a path equal to `D ++ N` also matches), no restriction to file entries, and
no check that the entry is currently Unwatched.  (Stated for registries
whose entries all have their parent resolved or slash-free paths, so the
scan does not append entries mid-iteration; the child name must not begin
with a slash, as inotify child names never do.) -/
theorem file_appeared_exact (w : World) (dirIdx : Nat) (de : Entry) (child : List Nat)
    (fs : List Nat → Option Nat) (wok : List Nat → Bool)
    (hd : w.registry[dirIdx]? = some de)
    (hc : child.head? ≠ some 47)
    (hp : ParentsDone w) :
    ∀ m, m ∈ (file_appeared w dirIdx child fs wok).2
      ↔ ∃ e, w.registry[m]? = some e
          ∧ ∃ k, e.name = de.name ++ List.replicate k 47 ++ child := by
  intro m
  have h := fa_loop_calls fs wok de.name child (2 * w.registry.length + 1) w 0 hp
    (by omega) m
  simp only [file_appeared, hd]
  rw [h]
  constructor
  · rintro ⟨_, e, he, hmch⟩
    exact ⟨e, he, (matches_child_iff hc).mp hmch⟩
  · rintro ⟨e, he, hk⟩
    exact ⟨Nat.zero_le m, e, he, (matches_child_iff hc).mpr hk⟩

/-- Claim C4 counterexample: a create event for child "f" on the directory
entry "d" calls reinit exactly on the entry with path "df" (no slash
separator!), which moreover is currently Watching: its offset jumps to the
new file size 9 and it receives a fresh descriptor.  The claim's "path
equals D + \"/\" + N" and "only on matches that are currently Unwatched" are
both violated. -/
theorem file_appeared_exact_counter :
    (file_appeared c4World 0 [102] (fun q => if q = [100, 102] then some 9 else none)
        (fun _ => true)).2 = [1]
    ∧ c4FileEntry.name ≠ [100] ++ [47] ++ [102]
    ∧ c4FileEntry.fd.isSome = true
    ∧ c4FileEntry.watch_desc.isSome = true
    ∧ ((file_appeared c4World 0 [102] (fun q => if q = [100, 102] then some 9 else none)
        (fun _ => true)).1.registry[1]?).map (fun e => (e.file_offset, e.fd.isSome))
        = some (9, true) := by
  refine ⟨?_, ?_, ?_, ?_, ?_⟩ <;> decide

/-- Claim C4 witness: on the concrete registry with the file "d/f" and the
directory "d", the characterization of the reinit targets holds; in
particular index 0 (path "d/f" = "d" ++ "/" ++ "f") is called. -/
theorem file_appeared_exact_witness :
    (c4wWorld.registry[1]? = some c4wDir)
    ∧ (([102] : List Nat).head? ≠ some 47)
    ∧ ParentsDone c4wWorld
    ∧ (∀ m, m ∈ (file_appeared c4wWorld 1 [102]
          (fun q => if q = [100, 47, 102] then some 3 else none) (fun _ => true)).2
        ↔ ∃ e, c4wWorld.registry[m]? = some e
            ∧ ∃ k, e.name = c4wDir.name ++ List.replicate k 47 ++ [102]) :=
  ⟨by decide, by decide, by decide,
    file_appeared_exact c4wWorld 1 c4wDir [102]
      (fun q => if q = [100, 47, 102] then some 3 else none) (fun _ => true)
      (by decide) (by decide) (by decide)⟩

/-! ### Preservation of the descriptor-handle coherence invariant -/

theorem good_setEntry {w : World} (hw : GoodW w) {e' : Entry} (hge : Good e')
    (i : Nat) : GoodW (setEntry w i e') := by
  intro e he
  simp only [setEntry] at he
  rcases List.mem_or_eq_of_mem_set he with h | h
  · exact hw e h
  · rw [h]; exact hge

theorem good_of_none {e : Entry} (hf : e.fd = none) (hw : e.watch_desc = none) :
    Good e := by
  intro _
  rw [hf, hw]

theorem good_of_some {e : Entry} {a b : Nat} (hf : e.fd = some a)
    (hw : e.watch_desc = some b) : Good e := by
  intro _
  rw [hf, hw]
  simp

/-- Replacing entry `i` with an entry whose descriptor, handle and kind agree
with the old entry preserves the coherence invariant. -/
theorem good_setEntry_like {w : World} (hw : GoodW w) {e e' : Entry} (i : Nat)
    (he : w.registry[i]? = some e) (hfd : e'.fd = e.fd)
    (hwd : e'.watch_desc = e.watch_desc) (hisf : e'.is_file = e.is_file) :
    GoodW (setEntry w i e') := by
  refine good_setEntry hw ?_ i
  intro hf
  rw [hfd, hwd]
  exact hw e (List.getElem?_mem he) (by rw [← hisf]; exact hf)

theorem good_init_watch {w : World} (hw : GoodW w) (n : List Nat) (isf : Bool)
    (wok : List Nat → Bool) : GoodW (init_watch w n isf wok) := by
  intro e he
  simp only [init_watch] at he
  rcases List.mem_append.mp he with h | h
  · exact hw e h
  · rw [List.mem_singleton] at h
    subst h
    intro hisf
    simp only at hisf
    simp [hisf]

theorem good_wait_for_parent {w : World} (hw : GoodW w) (i : Nat)
    (wok : List Nat → Bool) : GoodW (wait_for_parent w i wok) := by
  unfold wait_for_parent
  cases h1 : w.registry[i]? with
  | none => exact hw
  | some e =>
    cases hpar : e.parent with
    | some q => simpa [hpar] using hw
    | none =>
      simp only [hpar, Option.isSome_none, Bool.false_eq_true, if_false]
      cases hsl : lastSlashIdx e.name with
      | none => exact hw
      | some k =>
        cases hf : find_by_name w.registry (e.name.take k) with
        | some j =>
          simp only [hf]
          exact good_setEntry_like hw i h1 rfl rfl rfl
        | none =>
          simp only [hf]
          have h1' : (init_watch w (e.name.take k) false wok).registry[i]? = some e := by
            simp only [init_watch]
            rw [List.getElem?_append_left (lt_length_of_get? h1)]
            exact h1
          exact good_setEntry_like (good_init_watch hw _ _ _) i h1' rfl rfl rfl

theorem good_reinit {w : World} (hw : GoodW w) (i : Nat) (fs : List Nat → Option Nat)
    {wok : List Nat → Bool} (hwok : ∀ n, wok n = true) :
    GoodW (reinit_file w i fs wok) := by
  cases h1 : w.registry[i]? with
  | none =>
    simp only [reinit_file, h1]
    exact hw
  | some e =>
    have hwa : GoodW (setEntry w i { e with fd := none, watch_desc := none }) :=
      good_setEntry hw (good_of_none rfl rfl) i
    have hwb := good_wait_for_parent hwa i wok
    simp only [reinit_file, h1]
    cases h2 : (wait_for_parent (setEntry w i { e with fd := none, watch_desc := none })
        i wok).registry[i]? with
    | none =>
      simp only [h2]
      exact hwb
    | some e2 =>
      simp only [h2]
      cases h3 : fs e2.name with
      | none =>
        simp only [h3]
        exact hwb
      | some size =>
        simp only [h3, hwok e2.name, if_true]
        refine fun e3 he3 => good_setEntry hwb ?_ i e3 he3
        exact good_of_some rfl rfl

theorem good_file_deleted {w : World} (hw : GoodW w) (i : Nat) :
    GoodW (file_deleted w i) := by
  unfold file_deleted
  cases h1 : w.registry[i]? with
  | none => exact hw
  | some e => exact good_setEntry hw (good_of_none rfl rfl) i

theorem good_read_watch {w : World} (hw : GoodW w) (i : Nat) (contents : List Nat) :
    GoodW (read_watch w i contents).1 := by
  cases h1 : w.registry[i]? with
  | none =>
    simp only [read_watch, h1]
    exact hw
  | some e =>
    simp only [read_watch, h1]
    intro e3 he3
    refine good_setEntry_like hw i h1 ?_ ?_ ?_ e3 he3 <;> rfl

theorem good_fa_loop (fs : List Nat → Option Nat) {wok : List Nat → Bool}
    (hwok : ∀ n, wok n = true) (dir child : List Nat) :
    ∀ (fuel : Nat) (w : World) (j : Nat), GoodW w →
      GoodW (fa_loop fs wok dir child fuel w j).1 := by
  intro fuel
  induction fuel with
  | zero => intro w j hw; exact hw
  | succ fuel ih =>
    intro w j hw
    cases h1 : w.registry[j]? with
    | none =>
      simp only [fa_loop, h1]
      exact hw
    | some e =>
      by_cases hm : matches_child dir e.name child = true
      · simp only [fa_loop, h1, hm, if_true]
        exact ih _ _ (good_reinit hw j fs hwok)
      · simp only [fa_loop, h1, if_neg hm]
        exact ih _ _ hw

theorem good_file_appeared {w : World} (hw : GoodW w) (dirIdx : Nat)
    (child : List Nat) (fs : List Nat → Option Nat) {wok : List Nat → Bool}
    (hwok : ∀ n, wok n = true) :
    GoodW (file_appeared w dirIdx child fs wok).1 := by
  unfold file_appeared
  cases h1 : w.registry[dirIdx]? with
  | none => exact hw
  | some de => exact good_fa_loop fs hwok de.name child _ w 0 hw

theorem good_handle_event {w : World} (hw : GoodW w) (i : Nat) (name : List Nat)
    (modify createBit movedTo deleteSelf moveSelf : Bool) (contents : List Nat)
    (fs : List Nat → Option Nat) {wok : List Nat → Bool} (hwok : ∀ n, wok n = true) :
    GoodW (handle_event w i name modify createBit movedTo deleteSelf moveSelf
      contents fs wok).1 := by
  unfold handle_event
  have g1 : GoodW (if modify then read_watch w i contents else (w, [])).1 := by
    cases modify
    · simpa using hw
    · simpa using good_read_watch hw i contents
  have g2 : GoodW (if createBit || movedTo
      then (file_appeared (if modify then read_watch w i contents else (w, [])).1
        i name fs wok).1
      else (if modify then read_watch w i contents else (w, [])).1) := by
    cases hcm : (createBit || movedTo)
    · simpa using g1
    · simpa using good_file_appeared g1 i name fs hwok
  cases hdm : (deleteSelf || moveSelf)
  · simpa using g2
  · simpa using good_file_deleted g2 i

/-! ### Claim C5: descriptor iff handle -/

/-- Claim C5 (amended): provided `inotify_add_watch` succeeds whenever it is
attempted, every operation — reinit, file_deleted, and full event handling —
preserves the invariant that a file entry has an open descriptor iff it has
a live watch handle.  (Without that proviso the invariant is false: when
`open` succeeds but `inotify_add_watch` fails, the C code keeps the open
descriptor with no handle — see the counterexample.) -/
theorem watch_state_coherence (w : World) (i : Nat) (fs : List Nat → Option Nat)
    (wok : List Nat → Bool) (name contents : List Nat)
    (modify createBit movedTo deleteSelf moveSelf : Bool)
    (hwok : ∀ n, wok n = true) (hw : GoodW w) :
    GoodW (reinit_file w i fs wok)
    ∧ GoodW (file_deleted w i)
    ∧ GoodW (handle_event w i name modify createBit movedTo deleteSelf moveSelf
        contents fs wok).1 :=
  ⟨good_reinit hw i fs hwok, good_file_deleted hw i,
    good_handle_event hw i name modify createBit movedTo deleteSelf moveSelf
      contents fs hwok⟩

/-- Claim C5 counterexample: the claim as frozen has no proviso on
`inotify_add_watch`; reinit of an Unwatched file entry whose `open` succeeds
but whose watch subscription fails leaves a descriptor with no handle, so
"descriptor iff handle" is violated right after a reinit. -/
theorem watch_state_coherence_counter :
    GoodW c5World
    ∧ ¬ GoodW (reinit_file c5World 0 (fun _ => some 3) (fun _ => false))
    ∧ ((reinit_file c5World 0 (fun _ => some 3) (fun _ => false)).registry[0]?).map
        (fun e => (e.fd.isSome, e.watch_desc.isSome)) = some (true, false) := by
  refine ⟨?_, ?_, ?_⟩ <;> decide

/-- Claim C5 witness: with an always-succeeding `inotify_add_watch`, the
invariant is preserved by reinit, file_deleted, and a modify event on the
concrete one-entry world. -/
theorem watch_state_coherence_witness :
    (∀ n : List Nat, (fun _ => true) n = true)
    ∧ GoodW c5World
    ∧ (GoodW (reinit_file c5World 0 (fun _ => some 3) (fun _ => true))
      ∧ GoodW (file_deleted c5World 0)
      ∧ GoodW (handle_event c5World 0 [] true false false false false [10]
          (fun _ => some 3) (fun _ => true)).1) :=
  ⟨fun _ => rfl, by decide,
    watch_state_coherence c5World 0 _ _ [] [10] true false false false false
      (fun _ => rfl) (by decide)⟩

/-! ### Claim C8: what a successful reinit establishes -/

/-- Claim C8 (amended): on a successful reinit (both `open` and
`inotify_add_watch` succeed) the entry's offset is set to the current end of
the file and both descriptor and handle are installed — but the
LineAssembler is NOT reset: `reinit_file` never touches `line_buffer_pos`,
so the buffer is exactly what it was before the reinit (it is empty in the
common paths only because `calloc` or `file_deleted` cleared it earlier). -/
theorem reinit_success (w : World) (i : Nat) (fs : List Nat → Option Nat)
    (wok : List Nat → Bool) (e : Entry) (size : Nat)
    (he : w.registry[i]? = some e) (hfs : fs e.name = some size)
    (hwok : wok e.name = true) :
    ∃ e', (reinit_file w i fs wok).registry[i]? = some e'
      ∧ e'.file_offset = size ∧ e'.buffer = e.buffer
      ∧ e'.fd.isSome = true ∧ e'.watch_desc.isSome = true
      ∧ e'.name = e.name ∧ e'.is_file = e.is_file := by
  have hi := lt_length_of_get? he
  have hwa : (setEntry w i { e with fd := none, watch_desc := none }).registry[i]?
      = some { e with fd := none, watch_desc := none } := by
    simp only [setEntry]
    exact List.getElem?_set_self hi
  obtain ⟨e1, h1, hwd1, hnm1, hfd1, hoff1, hbuf1, hisf1⟩ :=
    wait_for_parent_fields (setEntry w i { e with fd := none, watch_desc := none }) i wok hwa
  have hi1 := lt_length_of_get? h1
  simp only [reinit_file, he, h1, hnm1, hfs, hwok, if_true]
  refine ⟨{
      watch_desc := some (wait_for_parent
        (setEntry w i { e with fd := none, watch_desc := none }) i wok).nextWd,
      parent := e1.parent,
      name := e.name,
      fd := some (wait_for_parent
        (setEntry w i { e with fd := none, watch_desc := none }) i wok).nextFd,
      file_offset := size,
      buffer := e1.buffer,
      is_file := e1.is_file }, ?_, rfl, hbuf1, rfl, rfl, rfl, hisf1⟩
  simp only [setEntry]
  exact List.getElem?_set_self hi1

/-- Claim C8 counterexample: reinit of an entry whose buffer still holds the
byte 97 succeeds (new offset 2, descriptor and handle installed) yet leaves
the buffer equal to [97], not the fresh empty assembler the claim asserts. -/
theorem reinit_success_counter :
    ((reinit_file c8World 0 (fun q => if q = [102] then some 2 else none)
        (fun _ => true)).registry[0]?).map
        (fun e => (e.buffer, e.file_offset, e.fd.isSome, e.watch_desc.isSome))
      = some ([97], 2, true, true)
    ∧ [97] ≠ ([] : List Nat) := by
  refine ⟨?_, ?_⟩ <;> decide

/-- Claim C8 witness: the amended claim instantiated on the concrete world:
reinit succeeds, sets offset 2 (end of the new 2-byte file) and keeps the
old buffer [97]. -/
theorem reinit_success_witness :
    (c8World.registry[0]? = some c8Entry)
    ∧ ((fun q => if q = [102] then some 2 else none) c8Entry.name = some (2 : Nat))
    ∧ ((fun _ => true) c8Entry.name = true)
    ∧ ∃ e', (reinit_file c8World 0 (fun q => if q = [102] then some 2 else none)
          (fun _ => true)).registry[0]? = some e'
        ∧ e'.file_offset = 2 ∧ e'.buffer = c8Entry.buffer
        ∧ e'.fd.isSome = true ∧ e'.watch_desc.isSome = true
        ∧ e'.name = c8Entry.name ∧ e'.is_file = c8Entry.is_file :=
  ⟨by decide, by decide, rfl,
    reinit_success c8World 0 _ _ c8Entry 2 (by decide) (by decide) rfl⟩

/-- Claim C10 witness: from the empty buffer with two pending bytes, all four
safety bounds hold. -/
theorem buffer_safety_witness :
    ([] : List Nat).length + 1 < LINE_BUFFER_SIZE
    ∧ (([97, 10] : List Nat).take (LINE_BUFFER_SIZE - ([] : List Nat).length - 1)).length
        ≤ LINE_BUFFER_SIZE - ([] : List Nat).length - 1
    ∧ (readGo 3 [] [97, 10]).2.1.length + 1 < LINE_BUFFER_SIZE := by
  have h := buffer_safety [] [97, 10] (by decide)
  exact ⟨by decide, h.1, h.2.2.2 3⟩

end NotifyTail
